import Mathlib

/-!
Verification of the Piscinik retrieval-augmented-answer engine
(`rag_system.py`, class `PiscinikRAG`).

The Python methods are shallowly embedded as Lean functions.  Remote API
calls (OpenAI embeddings, chat completion) and file loads are modelled as
`Except Unit` oracle parameters: `.ok` is a successful call, `.error` is a
raised exception.  Similarity scores (floats in the source) are modelled as
rationals, which is faithful to every ordering/threshold comparison the code
performs; the real-vector geometry behind the scores is modelled separately
over `ℝ` for the normalization invariant.
-/

namespace Piscinik

/-- Similarity scores (floats in the source, modelled as `ℚ`). -/
abbrev Score := ℚ

/-- The threshold of `get_answer` (source line 189: `if score > 0.5`). -/
def simThreshold : Score := 1/2

/-- The fixed no-information message returned by `get_answer` when the
retrieval result list is empty (source line 184). -/
def noInfoMsg : String :=
  "Je n'ai pas trouvé d'information spécifique sur ce sujet dans ma base de connaissances."

/-- The fixed technical-difficulty message returned by `get_answer` when any
exception reaches its outer handler (source line 231). -/
def techMsg : String :=
  "Je rencontre un problème technique pour accéder à ma base de connaissances. Pouvez-vous reformuler votre question ?"

/-! ## The vector index (FAISS `IndexFlatIP`)

Modelled from the spec: the FAISS library is external to the repository.
The spec's Vector Index contract (section 4.3) is: `search(query_vector, k)`
returns up to `k` highest inner-product matches, ties broken by ascending
position, and the raw output is padded with position `-1` entries when `k`
exceeds the number of stored vectors. -/

/-- Ranking order on `(position, score)` pairs: higher score first, ties by
ascending position. -/
def rankLE (p q : ℤ × Score) : Prop :=
  q.2 < p.2 ∨ (p.2 = q.2 ∧ p.1 ≤ q.1)

instance : DecidableRel rankLE := fun p q => by
  unfold rankLE; exact inferInstance

instance : IsTotal (ℤ × Score) rankLE :=
  ⟨by
    intro p q
    rcases lt_trichotomy p.2 q.2 with h | h | h
    · exact Or.inr (Or.inl h)
    · rcases le_total p.1 q.1 with h1 | h1
      · exact Or.inl (Or.inr ⟨h, h1⟩)
      · exact Or.inr (Or.inr ⟨h.symm, h1⟩)
    · exact Or.inl (Or.inl h)⟩

instance : IsTrans (ℤ × Score) rankLE :=
  ⟨by
    intro p q r hpq hqr
    rcases hpq with h1 | ⟨h1, h1'⟩ <;> rcases hqr with h2 | ⟨h2, h2'⟩
    · exact Or.inl (h2.trans h1)
    · exact Or.inl (h2 ▸ h1)
    · exact Or.inl (h1 ▸ h2)
    · exact Or.inr ⟨h1.trans h2, h1'.trans h2'⟩⟩

/-- Modelled from the spec: FAISS `IndexFlatIP.search` on a store whose
vector at position `i` scores `scores[i]` against the query.  Returns
exactly `k` `(position, score)` pairs: the stored positions sorted by
descending score (ties by ascending position), truncated to `k`, then padded
with `(-1, pad)` entries when fewer than `k` vectors are stored. -/
def rankedOf (scores : List Score) : List (ℤ × Score) :=
  (scores.enum.map (fun p => ((p.1 : ℤ), p.2))).insertionSort rankLE

/-- Modelled from the spec: the raw FAISS search output — the ranked
positions truncated to `k` and padded with `(-1, pad)` entries when fewer
than `k` vectors are stored. -/
def faissTopK (scores : List Score) (k : ℕ) (pad : Score) : List (ℤ × Score) :=
  let top := (rankedOf scores).take k
  top ++ List.replicate (k - top.length) (-1, pad)

/-- The result-collection loop of `search` (source lines 159–165): keep the
pairs whose index is a valid chunk position, replacing the index by the
chunk text. -/
def searchFilter (chunks : List String) (raw : List (ℤ × Score)) :
    List (String × Score) :=
  raw.filterMap fun p =>
    if h : 0 ≤ p.1 ∧ p.1.toNat < chunks.length then
      some (chunks.get ⟨p.1.toNat, h.2⟩, p.2)
    else none

/-- The positions the loop of `search` accepts, kept as positions (used to
state ranking/tie-break properties, which mention chunk positions). -/
def validHits (n : ℕ) (raw : List (ℤ × Score)) : List (ℕ × Score) :=
  raw.filterMap fun p =>
    if 0 ≤ p.1 ∧ p.1.toNat < n then some (p.1.toNat, p.2) else none

/-! ## Engine state, `initialize` and `search` -/

/-- Presence of the three persisted artifact files (source lines 58–62). -/
structure FS where
  csvExists : Bool
  embExists : Bool
  idxExists : Bool

/-- `_files_exist` (source lines 58–62): all three artifact files present. -/
def filesExist (fs : FS) : Bool :=
  fs.csvExists && fs.embExists && fs.idxExists

/-- The mutable engine state relevant to the claims: the chunk list and the
`initialized` flag. -/
structure RAGState where
  chunks : List String
  initialized : Bool
deriving DecidableEq

/-- `PiscinikRAG.initialize` (source lines 34–56).  `load` is the outcome of
`_load_existing` (an exception there is caught by the handler at line 52,
which enters degraded mode).  When any artifact file is missing the method
sets an empty chunk list and `initialized = True` without touching the
artifact files (deferred build). -/
def initRAG (st : RAGState) (fs : FS) (load : Except Unit (List String)) :
    RAGState :=
  if st.initialized then st
  else if filesExist fs then
    match load with
    | .ok cs => { chunks := cs, initialized := true }
    | .error _ => { chunks := [], initialized := true }
  else { chunks := [], initialized := true }

/-- Outcome of one `search` call: the returned value (or the exception it
raises), plus whether the deferred `_create_embeddings` build was entered. -/
structure SearchOutcome where
  result : Except Unit (List (String × Score))
  buildRan : Bool

/-- The tail of `PiscinikRAG.search` after the deferred build (source lines
140–168): the empty-chunk early return, then the `try` block — embed the
query, search the index, collect valid results — whose handler (line 170)
turns any exception inside it into `[]`.  `queryScores` is the outcome of
embedding the query and scoring it against the stored vectors: `.error` is
an exception raised by the embeddings call. -/
def searchBody (chunks : List String)
    (queryScores : Except Unit (List Score)) (k : ℕ) (pad : Score) :
    Except Unit (List (String × Score)) :=
  if chunks.isEmpty then .ok []
  else
    match queryScores with
    | .error _ => .ok []
    | .ok s => .ok (searchFilter chunks (faissTopK s k pad))

/-- `PiscinikRAG.search` (source lines 130–172).
`load` is the `_load_existing` oracle used if `initialize` runs first
(line 133); `build` is the outcome of the deferred `_create_embeddings`
(line 138) — its `.ok` value is the chunk list it loads from the CSV, and
its `.error` is an exception it raises, which `search` does NOT catch
(the call sits outside the `try` block). -/
def searchModel (st : RAGState) (fs : FS) (load : Except Unit (List String))
    (build : Except Unit (List String))
    (queryScores : Except Unit (List Score)) (k : ℕ) (pad : Score) :
    SearchOutcome :=
  let st1 := initRAG st fs load
  let doBuild := st1.chunks.isEmpty && fs.csvExists
  if doBuild then
    match build with
    | .error e => ⟨.error e, doBuild⟩
    | .ok chunks => ⟨searchBody chunks queryScores k pad, doBuild⟩
  else ⟨searchBody st1.chunks queryScores k pad, doBuild⟩

/-! ## `get_answer` -/

/-- Outcome of one `get_answer` call: the returned string, whether the
generation API was called, and the context parts assembled for it
(`[]` on the early returns that precede context construction). -/
structure AnswerOutcome where
  answer : String
  genCalled : Bool
  contextParts : List String
  context : String

/-- `PiscinikRAG.get_answer` (source lines 174–231).
`searchRes` is the outcome of `await self.search(query, top_k=3)` (line 180;
`.error` is an exception propagating out of `search`, caught by the outer
handler at line 229); `gen` is the outcome of the chat-completion call
(lines 205–224; `.error` is an exception there, caught by the same
handler). -/
def getAnswer (searchRes : Except Unit (List (String × Score)))
    (gen : Except Unit String) : AnswerOutcome :=
  match searchRes with
  | .error _ => ⟨techMsg, false, [], ""⟩
  | .ok [] => ⟨noInfoMsg, false, [], ""⟩
  | .ok (top :: rest) =>
    let parts0 := (top :: rest).filterMap fun p =>
      if simThreshold < p.2 then some p.1 else none
    let parts := if parts0.isEmpty then [top.1] else parts0
    let ctx := String.intercalate "\n\n" parts
    match gen with
    | .error _ => ⟨techMsg, true, parts, ctx⟩
    | .ok text => ⟨text, true, parts, ctx⟩

/-! ## Embedding batching (`_create_embeddings`) as an event trace -/

/-- One observable event of the embedding phase: a call to the embeddings
API with a batch of inputs, or an `asyncio.sleep` pause (in seconds). -/
inductive EmbedEvent
  | call (batch : List String)
  | sleep (secs : ℚ)
deriving DecidableEq

/-- `batch_size = 20` (source line 90). -/
def batchSize : ℕ := 20

/-- The `asyncio.sleep(0.2)` pause of source line 108, in seconds. -/
def pauseSecs : ℚ := 1/5

/-- Whether an event is an embeddings-API call. -/
def EmbedEvent.isCall : EmbedEvent → Bool
  | .call _ => true
  | .sleep _ => false

/-- Whether an event is a pacing pause. -/
def EmbedEvent.isSleep : EmbedEvent → Bool
  | .call _ => false
  | .sleep _ => true

/-- The loop of `_create_embeddings` (source lines 92–112):
`for i in range(0, len(chunks), batch_size)` issues one embeddings call on
`chunks[i : i+batch_size]`, then sleeps 0.2s iff `i + batch_size <
len(chunks)`. -/
def embedLoop (chunks : List String) (i : ℕ) : List EmbedEvent :=
  if i < chunks.length then
    EmbedEvent.call ((chunks.drop i).take batchSize) ::
      (if i + batchSize < chunks.length then
        EmbedEvent.sleep pauseSecs :: embedLoop chunks (i + batchSize)
      else embedLoop chunks (i + batchSize))
  else []
termination_by chunks.length - i
decreasing_by
  all_goals simp only [batchSize]
  all_goals omega

/-- The full event trace of `_create_embeddings` for a given chunk list. -/
def createEmbeddingsTrace (chunks : List String) : List EmbedEvent :=
  embedLoop chunks 0

/-- The successive batches the loop of `_create_embeddings` submits. -/
def batchesFrom (chunks : List String) (i : ℕ) : List (List String) :=
  if i < chunks.length then
    (chunks.drop i).take batchSize :: batchesFrom chunks (i + batchSize)
  else []
termination_by chunks.length - i
decreasing_by
  all_goals simp only [batchSize]
  all_goals omega

/-- The query-embedding request of `search` (source lines 148–151): a single
API call with the one-element input `[query]`, issued outside the batching
loop, with no pacing pause. -/
def queryEmbedTrace (query : String) : List EmbedEvent :=
  [EmbedEvent.call [query]]

/-! ## Vector geometry over `ℝ`

The normalization invariant concerns the numeric content of the vectors,
idealized over the reals. -/

/-- The inner product FAISS `IndexFlatIP` computes between two vectors. -/
def dotR {n : ℕ} (u v : Fin n → ℝ) : ℝ := ∑ i, u i * v i

/-- The Euclidean (L2) norm of a vector. -/
noncomputable def l2norm {n : ℕ} (v : Fin n → ℝ) : ℝ :=
  Real.sqrt (dotR v v)

/-- Modelled from the spec: `faiss.normalize_L2` divides each component of
a vector by the vector's Euclidean norm (called at source lines 118 and 154
on the chunk matrix and on the query vector, before insertion and before
querying). -/
noncomputable def normalizeL2 {n : ℕ} (v : Fin n → ℝ) : Fin n → ℝ :=
  fun i => v i / l2norm v

/-! ## Theorems -/

/-- C1: for every query whose retrieval returns a non-empty result list in
which no pair scores strictly above 0.5, `get_answer` builds its context
from exactly the first element of the result list; when chunks scoring
above 0.5 exist they form the context in ranked order; the context string
is the blank-line-separated concatenation; and the context is never empty
when retrieval returned at least one result. -/
theorem c1_context_fallback (l : List (String × Score)) (hl : l ≠ [])
    (gen : Except Unit String) :
    (getAnswer (.ok l) gen).contextParts ≠ []
    ∧ ((∀ p ∈ l, ¬ simThreshold < p.2) →
        (getAnswer (.ok l) gen).contextParts = [(l.head hl).1])
    ∧ ((∃ p ∈ l, simThreshold < p.2) →
        (getAnswer (.ok l) gen).contextParts
          = l.filterMap (fun p => if simThreshold < p.2 then some p.1 else none))
    ∧ (getAnswer (.ok l) gen).context
        = String.intercalate "\n\n" ((getAnswer (.ok l) gen).contextParts) := by
  match l, hl with
  | top :: rest, _ =>
    have hcp : (getAnswer (.ok (top :: rest)) gen).contextParts
        = if ((top :: rest).filterMap fun p =>
              if simThreshold < p.2 then some p.1 else none).isEmpty
          then [top.1]
          else (top :: rest).filterMap fun p =>
            if simThreshold < p.2 then some p.1 else none := by
      rcases gen with e | t <;> rfl
    have hctx : (getAnswer (.ok (top :: rest)) gen).context
        = String.intercalate "\n\n"
            ((getAnswer (.ok (top :: rest)) gen).contextParts) := by
      rcases gen with e | t <;> rfl
    refine ⟨?_, ?_, ?_, hctx⟩
    · by_cases hp : ((top :: rest).filterMap fun p =>
          if simThreshold < p.2 then some p.1 else none) = []
      · rw [hcp, if_pos (by rw [hp]; rfl)]
        simp
      · rw [hcp, if_neg (fun h => hp (List.isEmpty_iff.mp h))]
        exact hp
    · intro hall
      have hp : ((top :: rest).filterMap fun p =>
          if simThreshold < p.2 then some p.1 else none) = [] := by
        rw [List.filterMap_eq_nil_iff]
        intro p hpmem
        rw [if_neg (hall p hpmem)]
      rw [hcp, if_pos (by rw [hp]; rfl)]
      rfl
    · intro hex
      have hp : ((top :: rest).filterMap fun p =>
          if simThreshold < p.2 then some p.1 else none) ≠ [] := by
        rcases hex with ⟨p, hpmem, hlt⟩
        intro hnil
        rw [List.filterMap_eq_nil_iff] at hnil
        have := hnil p hpmem
        rw [if_pos hlt] at this
        exact Option.some_ne_none _ this
      rw [hcp, if_neg (fun h => hp (List.isEmpty_iff.mp h))]

/-- Witness for `c1_context_fallback` at a concrete below-threshold result
list. -/
theorem c1_context_fallback_witness :
    ([(("a" : String), (1 : Score)/4), ("b", (1 : Score)/5)] ≠ [])
    ∧ (getAnswer (.ok [("a", (1 : Score)/4), ("b", (1 : Score)/5)])
        (.ok "gen")).contextParts = ["a"] := by
  refine ⟨by simp, ?_⟩
  have h := c1_context_fallback [("a", (1 : Score)/4), ("b", (1 : Score)/5)]
    (by simp) (.ok "gen")
  exact h.2.1 (by intro p hp; fin_cases hp <;> norm_num [simThreshold])

/-- C2: `get_answer` always returns a string: an exception propagating from
the retrieval step, and an exception from the generation call, both resolve
to the fixed technical-difficulty message; a successful generation is
returned verbatim; the answer is always the technical-difficulty message,
the no-information message, or the verbatim generation output. -/
theorem c2_total_fallback (searchRes : Except Unit (List (String × Score)))
    (gen : Except Unit String) :
    (∀ e, searchRes = .error e → (getAnswer searchRes gen).answer = techMsg)
    ∧ (∀ l, searchRes = .ok l → l ≠ [] → gen = .error () →
        (getAnswer searchRes gen).answer = techMsg)
    ∧ (∀ l t, searchRes = .ok l → l ≠ [] → gen = .ok t →
        (getAnswer searchRes gen).answer = t)
    ∧ ((getAnswer searchRes gen).answer = techMsg
        ∨ (getAnswer searchRes gen).answer = noInfoMsg
        ∨ gen = .ok ((getAnswer searchRes gen).answer)) := by
  rcases searchRes with e | l
  · refine ⟨fun e' h => rfl, ?_, ?_, Or.inl rfl⟩
    · intro l h; cases h
    · intro l t h; cases h
  · rcases l with _ | ⟨top, rest⟩
    · refine ⟨?_, ?_, ?_, Or.inr (Or.inl rfl)⟩
      · intro e h; cases h
      · intro l h hl _; injection h with h'; exact absurd h'.symm hl
      · intro l t h hl _; injection h with h'; exact absurd h'.symm hl
    · rcases gen with e | t
      · refine ⟨?_, ?_, ?_, Or.inl rfl⟩
        · intro e' h; cases h
        · intro l h hl hg; rfl
        · intro l t h hl hg; cases hg
      · refine ⟨?_, ?_, ?_, Or.inr (Or.inr rfl)⟩
        · intro e' h; cases h
        · intro l h hl hg; cases hg
        · intro l t' h hl hg
          cases hg
          rfl

/-- Witness for `c2_total_fallback`: a successful run returns the generated
text verbatim. -/
theorem c2_total_fallback_witness :
    (getAnswer (.ok [(("c" : String), (1 : Score))]) (.ok "ok!")).answer
      = "ok!" := by
  have h := c2_total_fallback (.ok [(("c" : String), (1 : Score))]) (.ok "ok!")
  exact h.2.2.1 [(("c" : String), (1 : Score))] "ok!" rfl (by simp) rfl

/-- C3 counterexample: with an initialized engine holding no chunks and a
present corpus file, `search` enters the deferred `_create_embeddings`
build (line 138, outside the `try` block); when the embedding call inside
the build fails, `_create_embeddings` re-raises (line 112) and `search`
propagates the exception to its caller instead of returning `[]`. -/
theorem c3_counterexample :
    (searchModel ⟨[], true⟩ ⟨true, false, false⟩ (.ok []) (.error ())
        (.ok [1]) 3 0).result = .error ()
    ∧ (searchModel ⟨[], true⟩ ⟨true, false, false⟩ (.ok []) (.error ())
        (.ok [1]) 3 0).buildRan = true := ⟨rfl, rfl⟩

/-- The `try/except` of `search` never lets an exception out of the block:
`searchBody` always returns a value. -/
theorem searchBody_ok (chunks : List String)
    (queryScores : Except Unit (List Score)) (k : ℕ) (pad : Score) :
    ∃ l, searchBody chunks queryScores k pad = .ok l := by
  rw [searchBody.eq_def]
  by_cases hc : chunks.isEmpty
  · exact ⟨[], by simp [hc]⟩
  · rcases queryScores with e | s
    · exact ⟨[], by simp [hc]⟩
    · exact ⟨searchFilter chunks (faissTopK s k pad), by simp [hc]⟩

/-- A failed query-embedding call inside the `try` block yields `[]`. -/
theorem searchBody_embed_error (chunks : List String) (e : Unit) (k : ℕ)
    (pad : Score) : searchBody chunks (.error e) k pad = .ok [] := by
  rw [searchBody.eq_def]; by_cases hc : chunks.isEmpty <;> simp [hc]

/-- C3 amended: `search` never raises when it does not enter the deferred
build, or when the deferred build succeeds; an upstream failure while
embedding the query is converted into an empty result list; but when the
deferred build is entered and fails, the exception propagates to the
caller. -/
theorem c3_amended_no_raise (st : RAGState) (fs : FS)
    (load build : Except Unit (List String))
    (queryScores : Except Unit (List Score)) (k : ℕ) (pad : Score) :
    ((searchModel st fs load build queryScores k pad).buildRan = false →
      ∃ l, (searchModel st fs load build queryScores k pad).result = .ok l)
    ∧ (∀ cs, build = .ok cs →
        ∃ l, (searchModel st fs load build queryScores k pad).result = .ok l)
    ∧ (queryScores = .error () →
        ((searchModel st fs load build queryScores k pad).buildRan = true →
          ∃ cs, build = .ok cs) →
        (searchModel st fs load build queryScores k pad).result = .ok [])
    ∧ ((searchModel st fs load build queryScores k pad).buildRan = true →
        build = .error () →
        (searchModel st fs load build queryScores k pad).result = .error ()) := by
  by_cases hdb : ((initRAG st fs load).chunks.isEmpty && fs.csvExists) = true
  · rcases build with e | cs
    · have hsm : searchModel st fs load (.error e) queryScores k pad
          = ⟨.error e, true⟩ := by
        simp [searchModel, hdb]
      refine ⟨?_, ?_, ?_, ?_⟩
      · intro h; rw [hsm] at h; simp at h
      · intro cs h; cases h
      · intro hq himp
        rcases himp (by rw [hsm]) with ⟨cs, hcs⟩
        cases hcs
      · intro _ _; rw [hsm]
    · have hsm : searchModel st fs load (.ok cs) queryScores k pad
          = ⟨searchBody cs queryScores k pad, true⟩ := by
        simp [searchModel, hdb]
      refine ⟨?_, ?_, ?_, ?_⟩
      · intro _; rw [hsm]; exact searchBody_ok cs queryScores k pad
      · intro _ _; rw [hsm]; exact searchBody_ok cs queryScores k pad
      · intro hq _
        subst hq
        rw [hsm]
        exact searchBody_embed_error cs () k pad
      · intro _ h; cases h
  · have hsm : searchModel st fs load build queryScores k pad
        = ⟨searchBody (initRAG st fs load).chunks queryScores k pad, false⟩ := by
      simp [searchModel, hdb]
    refine ⟨?_, ?_, ?_, ?_⟩
    · intro _
      rw [hsm]
      exact searchBody_ok (initRAG st fs load).chunks queryScores k pad
    · intro cs h
      rw [hsm]
      exact searchBody_ok (initRAG st fs load).chunks queryScores k pad
    · intro hq _
      subst hq
      rw [hsm]
      exact searchBody_embed_error (initRAG st fs load).chunks () k pad
    · intro h _
      rw [hsm] at h
      simp at h

/-- Witness for `c3_amended_no_raise`: a query-embedding failure on a
loaded engine yields the empty result list. -/
theorem c3_amended_no_raise_witness :
    (searchModel ⟨["a"], true⟩ ⟨true, true, true⟩ (.ok ["a"]) (.ok ["a"])
        (.error ()) 3 0).result = .ok [] := by
  have h := c3_amended_no_raise ⟨["a"], true⟩ ⟨true, true, true⟩ (.ok ["a"])
    (.ok ["a"]) (.error ()) 3 0
  exact h.2.2.1 rfl (fun _ => ⟨["a"], rfl⟩)

/-- C4 counterexample: when retrieval returns a non-empty result list and
the generation call happens to produce exactly the fixed no-information
text, `get_answer` returns the no-information message although retrieval
was non-empty — so "no-information message ⟹ retrieval was empty" fails. -/
theorem c4_counterexample :
    (getAnswer (.ok [(("c" : String), (1 : Score))]) (.ok noInfoMsg)).answer
      = noInfoMsg
    ∧ ([(("c" : String), (1 : Score))] ≠ ([] : List (String × Score)))
    ∧ (getAnswer (.ok [(("c" : String), (1 : Score))])
        (.ok noInfoMsg)).genCalled = true := ⟨rfl, by simp, rfl⟩

/-- C4 amended: if retrieval returns an empty result list, `get_answer`
returns the fixed no-information message and makes no generation call;
conversely, when retrieval is non-empty, the no-information message is
returned only if the generation call itself produced exactly that text (and
generation was called); an exception from retrieval never yields the
no-information message. -/
theorem c4_amended_no_info (searchRes : Except Unit (List (String × Score)))
    (gen : Except Unit String) :
    (searchRes = .ok [] → (getAnswer searchRes gen).answer = noInfoMsg
        ∧ (getAnswer searchRes gen).genCalled = false)
    ∧ (∀ l, searchRes = .ok l → l ≠ [] →
        (getAnswer searchRes gen).answer = noInfoMsg →
        gen = .ok noInfoMsg ∧ (getAnswer searchRes gen).genCalled = true)
    ∧ (∀ e, searchRes = .error e →
        (getAnswer searchRes gen).answer ≠ noInfoMsg) := by
  have hne : techMsg ≠ noInfoMsg := by decide
  rcases searchRes with e | l
  · simp [getAnswer, hne]
  · rcases l with _ | ⟨top, rest⟩
    · simp [getAnswer]
    · rcases gen with e | t
      · refine ⟨(by intro h; cases h), ?_, (by intro e h; cases h)⟩
        intro l h hl habs
        exact absurd habs hne
      · refine ⟨(by intro h; cases h), ?_, (by intro e h; cases h)⟩
        intro l h hl habs
        exact ⟨(by rw [← habs]; rfl), rfl⟩

/-- Witness for `c4_amended_no_info`: empty retrieval yields the
no-information message with no generation call. -/
theorem c4_amended_no_info_witness :
    (getAnswer (.ok []) (.ok "gen")).answer = noInfoMsg
    ∧ (getAnswer (.ok []) (.ok "gen")).genCalled = false :=
  (c4_amended_no_info (.ok []) (.ok "gen")).1 rfl

/-- C8: when any of the three artifact files is missing, `initialize`
completes with `initialized = true` and an empty chunk list, independently
of the load oracle (no partial load, no exception); and a subsequent
`search` on the resulting state, with the corpus file present, enters the
deferred build. -/
theorem c8_degraded_then_rebuild (st : RAGState) (fs : FS)
    (hst : st.initialized = false) (hfs : filesExist fs = false) :
    (∀ load, initRAG st fs load = ⟨[], true⟩)
    ∧ (fs.csvExists = true →
        ∀ load load' build queryScores k pad,
          (searchModel (initRAG st fs load) fs load' build queryScores
            k pad).buildRan = true) := by
  have h1 : ∀ load, initRAG st fs load = ⟨[], true⟩ := by
    intro load
    simp [initRAG, hst, hfs]
  refine ⟨h1, ?_⟩
  intro hcsv load load' build queryScores k pad
  have h2 : initRAG (initRAG st fs load) fs load' = ⟨[], true⟩ := by
    rw [h1 load]; rfl
  rcases build with e | cs <;> simp [searchModel, h2, hcsv]

/-- Unfolding `batchesFrom` while batches remain. -/
theorem batchesFrom_of_lt (chunks : List String) (i : ℕ)
    (h : i < chunks.length) :
    batchesFrom chunks i
      = (chunks.drop i).take batchSize :: batchesFrom chunks (i + batchSize) := by
  rw [batchesFrom.eq_def]
  simp [h]

/-- Unfolding `batchesFrom` at the end of the corpus. -/
theorem batchesFrom_of_ge (chunks : List String) (i : ℕ)
    (h : ¬ i < chunks.length) : batchesFrom chunks i = [] := by
  rw [batchesFrom.eq_def]
  simp [h]

/-- Unfolding `embedLoop` while batches remain. -/
theorem embedLoop_of_lt (chunks : List String) (i : ℕ)
    (h : i < chunks.length) :
    embedLoop chunks i
      = EmbedEvent.call ((chunks.drop i).take batchSize) ::
          (if i + batchSize < chunks.length then
            EmbedEvent.sleep pauseSecs :: embedLoop chunks (i + batchSize)
          else embedLoop chunks (i + batchSize)) := by
  rw [embedLoop.eq_def]
  simp [h]

/-- Unfolding `embedLoop` at the end of the corpus. -/
theorem embedLoop_of_ge (chunks : List String) (i : ℕ)
    (h : ¬ i < chunks.length) : embedLoop chunks i = [] := by
  rw [embedLoop.eq_def]
  simp [h]

/-- The embedding loop's event trace is exactly its batch calls separated by
single 0.2-second pauses: no pause before the first call, one pause between
consecutive calls, no pause after the last. -/
theorem embedLoop_eq_intersperse (chunks : List String) (i : ℕ) :
    embedLoop chunks i
      = List.intersperse (EmbedEvent.sleep pauseSecs)
          ((batchesFrom chunks i).map EmbedEvent.call) := by
  induction i using embedLoop.induct chunks with
  | case1 i h ih =>
    rw [embedLoop_of_lt chunks i h, batchesFrom_of_lt chunks i h, List.map_cons]
    by_cases h2 : i + batchSize < chunks.length
    · rw [if_pos h2, ih, batchesFrom_of_lt chunks _ h2, List.map_cons,
        List.intersperse_cons_cons]
    · rw [if_neg h2, ih, batchesFrom_of_ge chunks _ h2]
      rfl
  | case2 i h =>
    rw [embedLoop_of_ge chunks i h, batchesFrom_of_ge chunks i h]
    rfl

/-- Filtering the interspersed trace for API calls recovers exactly the
batch calls. -/
theorem filter_isCall_intersperse (bs : List (List String)) :
    (List.intersperse (EmbedEvent.sleep pauseSecs)
        (bs.map EmbedEvent.call)).filter EmbedEvent.isCall
      = bs.map EmbedEvent.call := by
  induction bs with
  | nil => rfl
  | cons b bs ih =>
    cases bs with
    | nil => rfl
    | cons b' bs' =>
      rw [List.map_cons, List.map_cons, List.intersperse_cons_cons]
      rw [List.map_cons] at ih
      simp [List.filter_cons, EmbedEvent.isCall, ih]

/-- The number of batches is `⌈(len - i) / batchSize⌉`. -/
theorem batchesFrom_length (chunks : List String) (i : ℕ) :
    (batchesFrom chunks i).length
      = (chunks.length - i + (batchSize - 1)) / batchSize := by
  induction i using batchesFrom.induct chunks with
  | case1 i h ih =>
    rw [batchesFrom_of_lt chunks i h, List.length_cons, ih]
    simp only [batchSize] at h ⊢
    omega
  | case2 i h =>
    rw [batchesFrom_of_ge chunks i h, List.length_nil]
    simp only [batchSize]
    omega

/-- Concatenating the batches recovers the corpus suffix: the loop embeds
the chunks in corpus order. -/
theorem batchesFrom_join (chunks : List String) (i : ℕ) :
    (batchesFrom chunks i).flatten = chunks.drop i := by
  induction i using batchesFrom.induct chunks with
  | case1 i h ih =>
    rw [batchesFrom_of_lt chunks i h, List.flatten_cons, ih]
    rw [show chunks.drop (i + batchSize) = (chunks.drop i).drop batchSize by
      rw [List.drop_drop]]
    exact List.take_append_drop batchSize (chunks.drop i)
  | case2 i h =>
    rw [batchesFrom_of_ge chunks i h]
    exact (List.drop_eq_nil_of_le (by omega)).symm

/-- Every batch the loop submits is non-empty and holds at most
`batchSize` chunks. -/
theorem batchesFrom_sizes (chunks : List String) (i : ℕ) :
    ∀ b ∈ batchesFrom chunks i, b ≠ [] ∧ b.length ≤ batchSize := by
  induction i using batchesFrom.induct chunks with
  | case1 i h ih =>
    rw [batchesFrom_of_lt chunks i h]
    intro b hb
    rcases List.mem_cons.mp hb with hb | hb
    · subst hb
      constructor
      · have hlen : ((chunks.drop i).take batchSize).length
            = min batchSize (chunks.length - i) := by
          rw [List.length_take, List.length_drop]
        intro hnil
        rw [hnil] at hlen
        simp only [List.length_nil, batchSize] at hlen
        omega
      · exact (List.length_take_le _ _).trans (le_refl _)
    · exact ih b hb
  | case2 i h =>
    rw [batchesFrom_of_ge chunks i h]
    intro b hb
    cases hb

/-- C7: `_create_embeddings` embeds the chunks in corpus order in batches of
at most 20, issuing `⌈n/20⌉` embedding calls for `n` chunks (3 calls for
45 chunks), with one 0.2-second pause between consecutive calls, none
before the first and none after the last (the trace is the interspersion of
the calls with single pauses); the query embedding of `search` is one
unbatched call with no pause. -/
theorem c7_batch_pacing (chunks : List String) (q : String) :
    createEmbeddingsTrace chunks
      = List.intersperse (EmbedEvent.sleep pauseSecs)
          ((batchesFrom chunks 0).map EmbedEvent.call)
    ∧ ((createEmbeddingsTrace chunks).filter EmbedEvent.isCall).length
        = (chunks.length + 19) / 20
    ∧ (chunks.length = 45 →
        ((createEmbeddingsTrace chunks).filter EmbedEvent.isCall).length = 3)
    ∧ (batchesFrom chunks 0).flatten = chunks
    ∧ (∀ b ∈ batchesFrom chunks 0, b ≠ [] ∧ b.length ≤ 20)
    ∧ ((queryEmbedTrace q).filter EmbedEvent.isCall).length = 1
    ∧ ((queryEmbedTrace q).filter EmbedEvent.isSleep).length = 0 := by
  have hcount : ((createEmbeddingsTrace chunks).filter EmbedEvent.isCall).length
      = (chunks.length + 19) / 20 := by
    rw [createEmbeddingsTrace, embedLoop_eq_intersperse,
      filter_isCall_intersperse, List.length_map, batchesFrom_length]
    simp only [batchSize]
    omega
  refine ⟨?_, hcount, ?_, ?_, ?_, rfl, rfl⟩
  · rw [createEmbeddingsTrace]
    exact embedLoop_eq_intersperse chunks 0
  · intro h45
    rw [hcount, h45]
  · have := batchesFrom_join chunks 0
    rwa [List.drop_zero] at this
  · have := batchesFrom_sizes chunks 0
    simpa only [batchSize] using this

/-- Witness for `c7_batch_pacing` at a 45-chunk corpus: exactly 3 calls. -/
theorem c7_batch_pacing_witness :
    ((createEmbeddingsTrace (List.replicate 45 "x")).filter
      EmbedEvent.isCall).length = 3 :=
  (c7_batch_pacing (List.replicate 45 "x") "q").2.2.1 (by simp)

/-- Witness for `c8_degraded_then_rebuild` at a concrete state with the
embedding-array file missing. -/
theorem c8_degraded_then_rebuild_witness :
    initRAG ⟨["old"], false⟩ ⟨true, false, true⟩ (.ok ["x"]) = ⟨[], true⟩
    ∧ (searchModel (initRAG ⟨["old"], false⟩ ⟨true, false, true⟩ (.ok ["x"]))
        ⟨true, false, true⟩ (.ok ["x"]) (.ok ["y"]) (.ok [1]) 3 0).buildRan
      = true := by
  have h := c8_degraded_then_rebuild ⟨["old"], false⟩ ⟨true, false, true⟩
    rfl rfl
  exact ⟨h.1 (.ok ["x"]), h.2 rfl (.ok ["x"]) (.ok ["x"]) (.ok ["y"]) (.ok [1]) 3 0⟩

/-- `validHits` distributes over append. -/
theorem validHits_append (n : ℕ) (l1 l2 : List (ℤ × Score)) :
    validHits n (l1 ++ l2) = validHits n l1 ++ validHits n l2 := by
  rw [validHits, validHits, validHits]
  exact List.filterMap_append l1 l2 _

/-- The `-1` padding entries of the raw FAISS output are all rejected by
the `0 <= idx < len(chunks)` guard. -/
theorem validHits_replicate (n m : ℕ) (pad : Score) :
    validHits n (List.replicate m (-1, pad)) = [] := by
  rw [validHits, List.filterMap_eq_nil_iff]
  intro a ha
  rw [List.eq_of_mem_replicate ha]
  exact if_neg (fun hc => by norm_num at hc)

/-- The positions paired with the scores are pairwise distinct. -/
theorem enumPairs_nodup_fst (s : List Score) :
    ((s.enum.map (fun p => ((p.1 : ℤ), p.2))).map Prod.fst).Nodup := by
  rw [List.map_map]
  have : (Prod.fst ∘ fun p : ℕ × Score => ((p.1 : ℤ), p.2))
      = (fun n : ℕ => (n : ℤ)) ∘ Prod.fst := rfl
  rw [this, ← List.map_map, List.enum_map_fst]
  exact (List.nodup_range _).map (fun a b h => Int.natCast_inj.mp h)

/-- The sorted list is pairwise ranked and its positions stay distinct. -/
theorem rankedOf_pairwise (s : List Score) :
    (rankedOf s).Pairwise (fun p q => rankLE p q ∧ p.1 ≠ q.1) := by
  have hs : (rankedOf s).Pairwise rankLE :=
    List.sorted_insertionSort rankLE _
  have hperm : List.Perm (rankedOf s)
      (s.enum.map (fun p => ((p.1 : ℤ), p.2))) :=
    List.perm_insertionSort rankLE _
  have hnd : ((rankedOf s).map Prod.fst).Nodup :=
    ((hperm.map Prod.fst).nodup_iff).mpr (enumPairs_nodup_fst s)
  have hne : (rankedOf s).Pairwise (fun p q => p.1 ≠ q.1) := by
    rw [List.Nodup, List.pairwise_map] at hnd
    exact hnd
  exact hs.and hne

/-- The truncated sorted list keeps the pairwise ranking. -/
theorem rankedOf_take_pairwise (s : List Score) (k : ℕ) :
    ((rankedOf s).take k).Pairwise (fun p q => rankLE p q ∧ p.1 ≠ q.1) :=
  (rankedOf_pairwise s).sublist (List.take_sublist k _)

/-- The valid hits of the raw FAISS output are the valid hits of the
truncated sorted list: the padding contributes nothing. -/
theorem validHits_faissTopK (n : ℕ) (s : List Score) (k : ℕ) (pad : Score) :
    validHits n (faissTopK s k pad)
      = validHits n ((rankedOf s).take k) := by
  rw [faissTopK]
  rw [validHits_append, validHits_replicate, List.append_nil]

/-- Transfer of the ranking order through the validity filter: scores are
non-increasing, and on equal scores the earlier hit has the strictly
smaller position. -/
theorem validHits_pairwise (n : ℕ) (l : List (ℤ × Score))
    (h : l.Pairwise (fun p q => rankLE p q ∧ p.1 ≠ q.1)) :
    (validHits n l).Pairwise
      (fun a b => b.2 ≤ a.2 ∧ (a.2 = b.2 → a.1 < b.1)) := by
  rw [validHits, List.pairwise_filterMap]
  refine h.imp ?_
  intro p q hpq
  intro a ha b hb
  by_cases hp : 0 ≤ p.1 ∧ p.1.toNat < n
  · rw [if_pos hp, Option.mem_def] at ha
    injection ha with ha'
    by_cases hq : 0 ≤ q.1 ∧ q.1.toNat < n
    · rw [if_pos hq, Option.mem_def] at hb
      injection hb with hb'
      subst ha'
      subst hb'
      rcases hpq.1 with hlt | ⟨heq, hle⟩
      · exact ⟨le_of_lt hlt, fun hab => absurd hab.symm (ne_of_lt hlt)⟩
      · refine ⟨le_of_eq heq.symm, fun _ => ?_⟩
        have hlt : p.1 < q.1 := lt_of_le_of_ne hle hpq.2
        omega
    · rw [if_neg hq] at hb
      cases hb
  · rw [if_neg hp] at ha
    cases ha

/-- Positions of hits surviving the validity filter keep distinct values. -/
theorem validHits_nodup_fst (n : ℕ) (l : List (ℤ × Score))
    (h : l.Pairwise (fun p q => p.1 ≠ q.1)) :
    ((validHits n l).map Prod.fst).Nodup := by
  rw [List.Nodup, List.pairwise_map, validHits, List.pairwise_filterMap]
  refine h.imp ?_
  intro p q hpq
  intro a ha b hb
  by_cases hp : 0 ≤ p.1 ∧ p.1.toNat < n
  · rw [if_pos hp, Option.mem_def] at ha
    injection ha with ha'
    by_cases hq : 0 ≤ q.1 ∧ q.1.toNat < n
    · rw [if_pos hq, Option.mem_def] at hb
      injection hb with hb'
      subst ha'
      subst hb'
      intro hab
      apply hpq
      have := hp.1
      have := hq.1
      omega
    · rw [if_neg hq] at hb
      cases hb
  · rw [if_neg hp] at ha
    cases ha

/-- Every hit surviving the validity filter has a position inside the
chunk range. -/
theorem validHits_mem_lt (n : ℕ) (l : List (ℤ × Score)) :
    ∀ a ∈ validHits n l, a.1 < n := by
  intro a ha
  rw [validHits, List.mem_filterMap] at ha
  rcases ha with ⟨p, hpmem, hpa⟩
  by_cases hc : 0 ≤ p.1 ∧ p.1.toNat < n
  · rw [if_pos hc] at hpa
    injection hpa with h'
    rw [← h']
    exact hc.2
  · rw [if_neg hc] at hpa
    cases hpa

/-- A duplicate-free list of naturals all below `n` has at most `n`
elements. -/
theorem length_le_of_nodup_bounded {l : List ℕ} {n : ℕ} (hnd : l.Nodup)
    (hb : ∀ x ∈ l, x < n) : l.length ≤ n := by
  classical
  have hsub : l.toFinset ⊆ Finset.range n := by
    intro x hx
    rw [List.mem_toFinset] at hx
    rw [Finset.mem_range]
    exact hb x hx
  have hcard := Finset.card_le_card hsub
  rwa [List.toFinset_card_of_nodup hnd, Finset.card_range] at hcard

/-- The result loop of `search` returns exactly the valid hits with
positions replaced by the corresponding chunks. -/
theorem searchFilter_eq_map (chunks : List String)
    (raw : List (ℤ × Score)) :
    searchFilter chunks raw
      = (validHits chunks.length raw).map
          (fun p => (chunks.getD p.1 "", p.2)) := by
  rw [searchFilter, validHits, List.map_filterMap]
  apply List.filterMap_congr
  intro p hp
  by_cases hc : 0 ≤ p.1 ∧ p.1.toNat < chunks.length
  · rw [dif_pos hc, if_pos hc]
    simp only [Option.map_some']
    congr 1
    rw [List.get_eq_getElem, List.getD_eq_getElem _ _ hc.2]
  · rw [dif_neg hc, if_neg hc]
    rfl

/-- C6: the `search` result holds at most `k` pairs; the accepted
(position, score) hits are sorted with non-increasing scores and, on equal
scores, strictly ascending chunk positions; the returned pairs are exactly
those hits mapped to their chunks; and the output is a pure function of its
inputs (repeated identical queries give identical results). -/
theorem c6_ranking (chunks : List String) (s : List Score) (k : ℕ)
    (pad : Score) :
    (searchFilter chunks (faissTopK s k pad)).length ≤ k
    ∧ (validHits chunks.length (faissTopK s k pad)).Pairwise
        (fun a b => b.2 ≤ a.2 ∧ (a.2 = b.2 → a.1 < b.1))
    ∧ searchFilter chunks (faissTopK s k pad)
        = (validHits chunks.length (faissTopK s k pad)).map
            (fun p => (chunks.getD p.1 "", p.2))
    ∧ faissTopK s k pad = faissTopK s k pad := by
  have hlen : (searchFilter chunks (faissTopK s k pad)).length ≤ k := by
    rw [searchFilter_eq_map, List.length_map, validHits_faissTopK, validHits]
    exact (List.length_filterMap_le _ _).trans
      ((List.length_take_le _ _).trans (le_refl _))
  refine ⟨hlen, ?_, searchFilter_eq_map chunks _, rfl⟩
  rw [validHits_faissTopK]
  exact validHits_pairwise chunks.length _ (rankedOf_take_pairwise s k)

/-- C10: every pair `search` returns is some in-range chunk with its score
(`-1` padding and any out-of-range position is dropped), and the result has
at most `min k (number of chunks)` entries. -/
theorem c10_valid_positions (chunks : List String) (s : List Score)
    (k : ℕ) (pad : Score) (raw : List (ℤ × Score)) :
    (∀ p ∈ searchFilter chunks raw,
      ∃ i, ∃ h : i < chunks.length, p.1 = chunks.get ⟨i, h⟩)
    ∧ (searchFilter chunks (faissTopK s k pad)).length
        ≤ min k chunks.length := by
  constructor
  · intro p hp
    rw [searchFilter, List.mem_filterMap] at hp
    rcases hp with ⟨q, hqmem, hqp⟩
    by_cases hc : 0 ≤ q.1 ∧ q.1.toNat < chunks.length
    · rw [dif_pos hc] at hqp
      injection hqp with h'
      exact ⟨q.1.toNat, hc.2, by rw [← h']⟩
    · rw [dif_neg hc] at hqp
      cases hqp
  · have hk : (searchFilter chunks (faissTopK s k pad)).length ≤ k := by
      rw [searchFilter_eq_map, List.length_map, validHits_faissTopK,
        validHits]
      exact (List.length_filterMap_le _ _).trans (List.length_take_le _ _)
    have hn : (searchFilter chunks (faissTopK s k pad)).length
        ≤ chunks.length := by
      rw [searchFilter_eq_map, List.length_map, validHits_faissTopK]
      have hne : ((rankedOf s).take k).Pairwise (fun p q => p.1 ≠ q.1) :=
        (rankedOf_take_pairwise s k).imp And.right
      have hnd := validHits_nodup_fst chunks.length _ hne
      have hmem : ∀ x ∈ (validHits chunks.length
          ((rankedOf s).take k)).map Prod.fst, x < chunks.length := by
        intro x hx
        rw [List.mem_map] at hx
        rcases hx with ⟨a, ha, hax⟩
        rw [← hax]
        exact validHits_mem_lt chunks.length _ a ha
      have := length_le_of_nodup_bounded hnd hmem
      rwa [List.length_map] at this
    exact le_min hk hn

/-- A vector's inner product with itself is non-negative. -/
theorem dotR_self_nonneg {n : ℕ} (v : Fin n → ℝ) : 0 ≤ dotR v v :=
  Finset.sum_nonneg fun i _ => mul_self_nonneg (v i)

/-- A non-zero vector's inner product with itself is positive. -/
theorem dotR_self_pos {n : ℕ} (v : Fin n → ℝ) (hv : v ≠ 0) :
    0 < dotR v v := by
  rcases Function.ne_iff.mp hv with ⟨i, hi⟩
  rw [Pi.zero_apply] at hi
  exact Finset.sum_pos' (fun j _ => mul_self_nonneg (v j))
    ⟨i, Finset.mem_univ i, mul_self_pos.mpr hi⟩

/-- A non-zero vector has positive norm. -/
theorem l2norm_pos {n : ℕ} (v : Fin n → ℝ) (hv : v ≠ 0) : 0 < l2norm v :=
  Real.sqrt_pos.mpr (dotR_self_pos v hv)

/-- Normalizing a non-zero vector yields a vector of unit self-inner
product. -/
theorem dotR_normalize_self {n : ℕ} (v : Fin n → ℝ) (hv : v ≠ 0) :
    dotR (normalizeL2 v) (normalizeL2 v) = 1 := by
  have hN : l2norm v ≠ 0 := ne_of_gt (l2norm_pos v hv)
  have hsq : l2norm v * l2norm v = dotR v v :=
    Real.mul_self_sqrt (dotR_self_nonneg v)
  have hstep : dotR (normalizeL2 v) (normalizeL2 v)
      = (∑ i, v i * v i) / (l2norm v * l2norm v) := by
    rw [dotR, Finset.sum_div]
    refine Finset.sum_congr rfl fun i _ => ?_
    simp only [normalizeL2]
    rw [div_mul_div_comm]
  rw [hstep, hsq, ← dotR, div_self (ne_of_gt (dotR_self_pos v hv))]

/-- Normalizing a non-zero vector yields a unit-norm vector. -/
theorem l2norm_normalize {n : ℕ} (v : Fin n → ℝ) (hv : v ≠ 0) :
    l2norm (normalizeL2 v) = 1 := by
  rw [l2norm, dotR_normalize_self v hv, Real.sqrt_one]

/-- Cauchy–Schwarz: the inner product of two unit vectors has absolute
value at most 1. -/
theorem dotR_unit_bound {n : ℕ} (u w : Fin n → ℝ) (hu : dotR u u = 1)
    (hw : dotR w w = 1) : |dotR u w| ≤ 1 := by
  have h := Finset.sum_mul_sq_le_sq_mul_sq Finset.univ u w
  have hu' : (∑ i, u i ^ 2) = 1 := by
    rw [← hu, dotR]
    exact Finset.sum_congr rfl fun i _ => pow_two (u i)
  have hw' : (∑ i, w i ^ 2) = 1 := by
    rw [← hw, dotR]
    exact Finset.sum_congr rfl fun i _ => pow_two (w i)
  rw [hu', hw', mul_one] at h
  exact (sq_le_one_iff_abs_le_one _).mp h

/-- C5: with the FAISS normalization applied before insertion and before
querying, every non-zero stored vector normalizes to unit L2 norm (hence
within `1e-5` of 1), and the inner-product similarity score of the
normalized query against any normalized stored vector lies in `[-1, 1]`. -/
theorem c5_normalization {n : ℕ} (q v : Fin n → ℝ) (hq : q ≠ 0)
    (hv : v ≠ 0) :
    l2norm (normalizeL2 v) = 1
    ∧ |l2norm (normalizeL2 v) - 1| ≤ 1 / 100000
    ∧ -1 ≤ dotR (normalizeL2 q) (normalizeL2 v)
    ∧ dotR (normalizeL2 q) (normalizeL2 v) ≤ 1 := by
  have h1 := l2norm_normalize v hv
  have habs := dotR_unit_bound (normalizeL2 q) (normalizeL2 v)
    (dotR_normalize_self q hq) (dotR_normalize_self v hv)
  have hpair := abs_le.mp habs
  exact ⟨h1, by rw [h1]; norm_num, hpair.1, hpair.2⟩

/-- Witness for `c5_normalization` at the concrete vectors `(1, 0)` and
`(3, 4)`. -/
theorem c5_normalization_witness :
    (![(3 : ℝ), 4] ≠ 0)
    ∧ l2norm (normalizeL2 ![(3 : ℝ), 4]) = 1 := by
  have hv : (![(3 : ℝ), 4]) ≠ 0 := by
    intro h
    have h0 := congrFun h 0
    simp at h0
  have hq : (![(1 : ℝ), 0]) ≠ 0 := by
    intro h
    have h0 := congrFun h 0
    simp at h0
  exact ⟨hv, (c5_normalization ![(1 : ℝ), 0] ![(3 : ℝ), 4] hq hv).1⟩

end Piscinik
